import Mathlib

/-!
Verification of the Markdown section segmentation / recomposition logic of
the resume-optimizer repository (`src/resume_optimizer/src/ai_engine.py`)
and the upload dispatcher (`src/resume_optimizer/src/document_processor.py`).

Python strings are modelled as Lean `String`; the Python string methods the
code uses (`split('\n')`, `strip()`, `strip('#')`, `startswith`, `lower()`,
`title()`, `in`, `endswith`, `join`) are embedded as executable functions on
the underlying character lists.  Python `dict` (insertion-ordered, assignment
updates in place) is modelled as an association list `List (String × String)`
with an update-in-place-or-append operation `dictSet`.
-/

namespace ResumeOpt

/-- Python `str.isspace` characters relevant to `str.strip()` (ASCII range). -/
def isPySpace (c : Char) : Bool :=
  c == ' ' || c == '\t' || c == '\n' || c == '\x0b' || c == '\x0c' || c == '\r'

/-- Strip characters satisfying `p` from both ends of a character list
(Python `str.strip(chars)`). -/
def stripChars (p : Char → Bool) (l : List Char) : List Char :=
  ((l.dropWhile p).reverse.dropWhile p).reverse

/-- Python `line.strip()` (whitespace from both ends). -/
def pyStrip (s : String) : String :=
  ⟨stripChars isPySpace s.data⟩

/-- Python `line.strip('#')` (`'#'` characters from both ends). -/
def pyStripHash (s : String) : String :=
  ⟨stripChars (· == '#') s.data⟩

/-- Split a character list at every occurrence of `sep`
(Python `str.split(sep)`; the empty list yields `[[]]`). -/
def splitOnChar (sep : Char) : List Char → List (List Char)
  | [] => [[]]
  | c :: rest =>
    if c == sep then
      [] :: splitOnChar sep rest
    else
      match splitOnChar sep rest with
      | [] => [[c]]
      | l :: ls => (c :: l) :: ls

/-- Python `text.split('\n')`. -/
def pySplitLines (s : String) : List String :=
  (splitOnChar '\n' s.data).map fun l => ⟨l⟩

/-- String concatenation on the underlying character lists (Python `+`). -/
def strAppend (a b : String) : String :=
  ⟨a.data ++ b.data⟩

/-- Python `str.lower()` (ASCII case folding, character by character). -/
def strLower (s : String) : String :=
  ⟨s.data.map Char.toLower⟩

/-- Python `'\n'.join(parts)`. -/
def joinNl : List String → String
  | [] => ""
  | [s] => s
  | s :: rest => strAppend s (strAppend "\n" (joinNl rest))

/-- Boolean list-prefix test (building block for Python's substring test). -/
def pfxOf : List Char → List Char → Bool
  | [], _ => true
  | _ :: _, [] => false
  | a :: as, b :: bs => a == b && pfxOf as bs

/-- Boolean contiguous-sublist test on character lists. -/
def isSubChars (p : List Char) : List Char → Bool
  | [] => pfxOf p []
  | c :: t => pfxOf p (c :: t) || isSubChars p t

/-- Python `pat in s` (substring containment). -/
def containsStr (s pat : String) : Bool :=
  isSubChars pat.data s.data

/-- Python `s.endswith(suf)`. -/
def endsWithStr (s suf : String) : Bool :=
  pfxOf suf.data.reverse s.data.reverse

/-- Python `line.strip().startswith('#')`: the header test of
`extract_sections` (`ai_engine.py` line 127). -/
def isHeaderLine (line : String) : Bool :=
  match (pyStrip line).data with
  | '#' :: _ => true
  | _ => false

/-- Python `line.strip('#').strip()`: the section name taken from a header
line (`ai_engine.py` line 130). -/
def headerName (line : String) : String :=
  pyStrip (pyStripHash line)

/-- Python `str.title()` on ASCII text: a letter is uppercased when the
previous character is not a letter, lowercased otherwise.  The flag records
whether the previous character was a letter. -/
def pyTitleChars : List Char → Bool → List Char
  | [], _ => []
  | c :: rest, prevAlpha =>
    (if c.isAlpha then (if prevAlpha then c.toLower else c.toUpper) else c)
      :: pyTitleChars rest c.isAlpha

/-- Python `name.title()`. -/
def pyTitle (s : String) : String :=
  ⟨pyTitleChars s.data false⟩

/-- Python dict assignment `d[k] = v`: updates the value in place if the key
is present (keeping its original position), appends otherwise. -/
def dictSet (d : List (String × String)) (k v : String) : List (String × String) :=
  match d with
  | [] => [(k, v)]
  | (k', v') :: rest => if k' = k then (k, v) :: rest else (k', v') :: dictSet rest k v

/-- Python `d.get(k)`: the value of the first (hence only) entry with key `k`. -/
def dictFind (d : List (String × String)) (k : String) : Option String :=
  (d.find? fun kv => kv.1 = k).map fun kv => kv.2

/-- The loop of `ResumeOptimizer.extract_sections` (`ai_engine.py`
lines 123–138): walks the lines keeping the current section name `cur` and
the accumulated body lines `content`; a header line flushes a non-empty body
under `cur.lower()` and resets, any other line is appended; a final flush
happens after the loop. -/
def extractLoop : List String → String → List String → List (String × String) → List (String × String)
  | [], cur, content, secs =>
    if content ≠ [] then dictSet secs (strLower cur) (joinNl content) else secs
  | line :: rest, cur, content, secs =>
    if isHeaderLine line then
      extractLoop rest (headerName line) []
        (if content ≠ [] then dictSet secs (strLower cur) (joinNl content) else secs)
    else
      extractLoop rest cur (content ++ [line]) secs

/-- The function `ResumeOptimizer.extract_sections` (`ai_engine.py` lines 113–140). -/
def extract_sections (resume_text : String) : List (String × String) :=
  extractLoop (pySplitLines resume_text) "General" [] []

/-- The fixed canonical section order of `ResumeOptimizer.combine_sections`
(`ai_engine.py` lines 189–193). -/
def section_order : List String :=
  ["summary", "experience", "skills", "education", "certifications",
   "projects", "publications", "awards", "languages", "interests"]

/-- One emitted block of `combine_sections`:
`f"# {name.title()}\n\n{content.strip()}\n"`. -/
def sectionBlock (name content : String) : String :=
  strAppend "# " (strAppend (pyTitle name)
    (strAppend "\n\n" (strAppend (pyStrip content) "\n")))

/-- The key/value pairs `combine_sections` emits, in emission order: for each
canonical name in order, the first mapping entry whose lowercased key
contains it (`break` after the first); then every entry whose lowercased key
contains no canonical name, in mapping order. -/
def emittedPairs (sections : List (String × String)) : List (String × String) :=
  (section_order.filterMap fun sec =>
      sections.find? fun kv => containsStr (strLower kv.1) sec) ++
  (sections.filter fun kv =>
      !(section_order.any fun sec => containsStr (strLower kv.1) sec))

/-- The function `ResumeOptimizer.combine_sections` (`ai_engine.py`
lines 181–210): emits a block per emitted pair and joins the blocks with
`'\n'.join`. -/
def combine_sections (sections : List (String × String)) : String :=
  joinNl ((emittedPairs sections).map fun kv => sectionBlock kv.1 kv.2)

/-- The function `ResumeOptimizer.enhance_sections` (`ai_engine.py`
lines 142–161), parameterized by the external rewrite call `rewrite` (the
`enhance_experience` LLM round-trip, an opaque collaborator): an entry whose
lowercased key contains `"experience"` has its value replaced by
`rewrite value job_description`, every other entry is kept. -/
def enhance_sections (rewrite : String → String → String)
    (sections : List (String × String)) (job_description : String) :
    List (String × String) :=
  sections.map fun kv =>
    if containsStr (strLower kv.1) "experience" then
      (kv.1, rewrite kv.2 job_description)
    else
      kv

/-- The extractor `DocumentProcessor.process_upload` dispatches to. -/
inductive Extractor where
  | pdf
  | docx
  | txt
deriving DecidableEq, Repr

/-- Python `filename.split('.')[-1]`. -/
def lastDotComponent (s : String) : String :=
  ⟨(splitOnChar '.' s.data).getLastD []⟩

/-- The function `DocumentProcessor.process_upload` (`document_processor.py`
lines 56–75):
lowercases the filename, dispatches on the extension suffix, and raises
`ValueError(f"Unsupported file format: {filename.split('.')[-1]}")` when no
suffix matches. -/
def process_upload (name : String) : Except String Extractor :=
  let filename := strLower name
  if endsWithStr filename ".pdf" then
    Except.ok Extractor.pdf
  else if endsWithStr filename ".docx" || endsWithStr filename ".doc" then
    Except.ok Extractor.docx
  else if endsWithStr filename ".txt" then
    Except.ok Extractor.txt
  else
    Except.error (strAppend "Unsupported file format: " (lastDotComponent filename))

/-- The keys of a section mapping, in insertion order. -/
def keysOf (d : List (String × String)) : List String :=
  d.map fun kv => kv.1

/-- Folding a list of flushes into a dict by repeated assignment; the loop of
`extract_sections` is this fold over its flush sequence (`rawSections`). -/
def setFold (d : List (String × String)) (raw : List (String × String)) :
    List (String × String) :=
  raw.foldl (fun d kv => dictSet d kv.1 kv.2) d

/-- The sequence of `sections[current_section.lower()] = '\n'.join(...)`
assignments (flushes) the `extract_sections` loop performs, in order, with
their keys and values.  Same traversal as `extractLoop`, but recording the
assignments instead of applying them. -/
def rawSections : List String → String → List String → List (String × String)
  | [], cur, content =>
    if content ≠ [] then [(strLower cur, joinNl content)] else []
  | line :: rest, cur, content =>
    if isHeaderLine line then
      (if content ≠ [] then [(strLower cur, joinNl content)] else []) ++
        rawSections rest (headerName line) []
    else
      rawSections rest cur (content ++ [line])

/-- The value of the last flush with key `k`, if any. -/
def lastVal (raw : List (String × String)) (k : String) : Option String :=
  (raw.reverse.find? fun kv => kv.1 = k).map fun kv => kv.2

/-- Modelled from the spec claim wording (C4): one entry per header line, keyed
by the lowercased header name, whose value joins the lines lying strictly
between that header line and the next header line (or the end of the
document); lines before the first header are ignored. -/
def specSegments : List String → List (String × String)
  | [] => []
  | line :: rest =>
    if isHeaderLine line then
      (strLower (headerName line),
        joinNl (rest.takeWhile fun l => !isHeaderLine l)) ::
        specSegments (rest.dropWhile fun l => !isHeaderLine l)
    else
      specSegments rest
termination_by lines => lines.length
decreasing_by
  · refine Nat.lt_succ_of_le ?_
    induction rest with
    | nil => simp
    | cons a t ih =>
      by_cases h : isHeaderLine a <;> simp [List.dropWhile, h] <;> omega
  · exact Nat.lt_succ_self _

/-- The lowercased names of the header lines, in order of occurrence. -/
def headerKeys (lines : List String) : List String :=
  (lines.filter fun l => isHeaderLine l).map fun l => strLower (headerName l)

/-- Every header line is followed by at least one line, and never immediately
by another header line: each header gets a non-empty body buffer. -/
def headersHaveBody : List String → Bool
  | [] => true
  | [l] => !isHeaderLine l
  | a :: b :: rest =>
    (!isHeaderLine a || !isHeaderLine b) && headersHaveBody (b :: rest)

/-- Every header line whose lowercased name is `n` is immediately followed by
another header line or by the end of the document (so its body buffer stays
empty). -/
def headerNoBody (n : String) : List String → Bool
  | [] => true
  | [_] => true
  | a :: b :: rest =>
    (!(isHeaderLine a && strLower (headerName a) == n) || isHeaderLine b) &&
      headerNoBody n (b :: rest)

/-- The keys `combine_sections` emits blocks for, in emission order. -/
def emittedKeys (sections : List (String × String)) : List String :=
  (emittedPairs sections).map fun kv => kv.1

@[simp]
theorem data_strAppend (a b : String) : (strAppend a b).data = a.data ++ b.data :=
  rfl

@[simp]
theorem data_mk (l : List Char) : (String.mk l).data = l :=
  rfl

theorem mk_data (s : String) : String.mk s.data = s := by
  cases s
  rfl

theorem splitOnChar_ne_nil (sep : Char) (l : List Char) : splitOnChar sep l ≠ [] := by
  cases l with
  | nil => simp [splitOnChar]
  | cons c rest =>
    by_cases h : c == sep
    · simp [splitOnChar, h]
    · simp only [splitOnChar, h]
      cases hs : splitOnChar sep rest <;> simp

theorem joinNl_map_mk_splitOnChar (l : List Char) :
    joinNl ((splitOnChar '\n' l).map fun x => (⟨x⟩ : String)) = ⟨l⟩ := by
  induction l with
  | nil => rfl
  | cons c rest ih =>
    by_cases h : c == '\n'
    · have hc : c = '\n' := by simpa using h
      subst hc
      simp only [splitOnChar, beq_self_eq_true, if_true, List.map]
      rcases hs : (splitOnChar '\n' rest).map (fun x => (⟨x⟩ : String)) with _ | ⟨y, ys⟩
      · exact absurd (List.map_eq_nil.mp hs) (splitOnChar_ne_nil _ _)
      · rw [hs] at ih
        have : joinNl (⟨[]⟩ :: y :: ys) = strAppend ⟨[]⟩ (strAppend "\n" (joinNl (y :: ys))) := rfl
        rw [this, ih]
        apply congrArg String.mk (α := List Char)
        rfl
    · simp only [splitOnChar, h]
      rcases hs : splitOnChar '\n' rest with _ | ⟨x, xs⟩
      · exact absurd hs (splitOnChar_ne_nil _ _)
      · rw [hs] at ih
        cases xs with
        | nil =>
          simp only [List.map] at ih ⊢
          have : joinNl [(⟨c :: x⟩ : String)] = ⟨c :: x⟩ := rfl
          rw [this]
          have hx : (⟨x⟩ : String) = ⟨rest⟩ := by simpa [joinNl] using ih
          have : x = rest := congrArg String.data hx
          rw [this]
        | cons y ys =>
          simp only [List.map] at ih ⊢
          have h1 : joinNl ((⟨c :: x⟩ : String) :: (⟨y⟩ : String) :: ys.map (fun x => (⟨x⟩ : String)))
              = strAppend ⟨c :: x⟩ (strAppend "\n" (joinNl ((⟨y⟩ : String) :: ys.map (fun x => (⟨x⟩ : String))))) := rfl
          have h2 : joinNl ((⟨x⟩ : String) :: (⟨y⟩ : String) :: ys.map (fun x => (⟨x⟩ : String)))
              = strAppend ⟨x⟩ (strAppend "\n" (joinNl ((⟨y⟩ : String) :: ys.map (fun x => (⟨x⟩ : String))))) := rfl
          rw [h2] at ih
          rw [h1]
          have ihd := congrArg String.data ih
          simp only [data_strAppend, data_mk] at ihd
          apply congrArg String.mk (α := List Char)
          simp only [data_strAppend, data_mk]
          rw [List.cons_append, ihd]

theorem joinNl_pySplitLines (s : String) : joinNl (pySplitLines s) = s := by
  rw [pySplitLines, joinNl_map_mk_splitOnChar, mk_data]

theorem extractLoop_eq_setFold (lines : List String) :
    ∀ cur content secs,
      extractLoop lines cur content secs = setFold secs (rawSections lines cur content) := by
  induction lines with
  | nil =>
    intro cur content secs
    by_cases h : content = [] <;> simp [extractLoop, rawSections, setFold, h]
  | cons line rest ih =>
    intro cur content secs
    by_cases hl : isHeaderLine line
    · by_cases h : content = [] <;>
        simp [extractLoop, rawSections, setFold, h, hl, ih, List.foldl_append, dictSet]
    · simp [extractLoop, rawSections, hl, ih]

theorem extract_sections_eq_setFold (text : String) :
    extract_sections text = setFold [] (rawSections (pySplitLines text) "General" []) := by
  rw [extract_sections, extractLoop_eq_setFold]

theorem dictFind_nil (k : String) : dictFind [] k = none :=
  rfl

theorem dictFind_cons (kv : String × String) (rest : List (String × String)) (k : String) :
    dictFind (kv :: rest) k = if kv.1 = k then some kv.2 else dictFind rest k := by
  by_cases h : kv.1 = k <;> simp [dictFind, List.find?, h]

theorem dictFind_dictSet (d : List (String × String)) (k v k' : String) :
    dictFind (dictSet d k v) k' = if k' = k then some v else dictFind d k' := by
  induction d with
  | nil =>
    rw [show dictSet ([] : List (String × String)) k v = [(k, v)] from rfl, dictFind_cons]
    by_cases h : k' = k
    · simp [h]
    · simp [dictFind_nil, h, Ne.symm h]
  | cons kv rest ih =>
    by_cases h1 : kv.1 = k
    · simp only [dictSet, h1, if_true]
      rw [dictFind_cons, dictFind_cons]
      by_cases h2 : k' = k
      · simp [h2]
      · simp [h2, Ne.symm h2, h1]
    · simp only [dictSet, h1, if_false]
      rw [dictFind_cons, dictFind_cons, ih]
      by_cases h2 : kv.1 = k'
      · have h3 : ¬k' = k := fun hk => h1 (h2.trans hk)
        simp [h2, h3]
      · simp [h2]

theorem mem_keysOf_dictSet (d : List (String × String)) (k v k' : String) :
    k' ∈ keysOf (dictSet d k v) ↔ k' = k ∨ k' ∈ keysOf d := by
  induction d with
  | nil => simp [dictSet, keysOf]
  | cons kv rest ih =>
    by_cases h1 : kv.1 = k
    · subst h1
      simp only [dictSet, if_true, keysOf, List.map, List.mem_cons]
      constructor
      · rintro (h | h)
        · exact Or.inl h
        · exact Or.inr (Or.inr h)
      · rintro (h | h | h)
        · exact Or.inl h
        · exact Or.inl h
        · exact Or.inr h
    · simp only [dictSet, h1, if_false]
      simp only [keysOf, List.map, List.mem_cons] at ih ⊢
      rw [ih]
      tauto

theorem dictSet_eq_append (d : List (String × String)) (k v : String)
    (h : k ∉ keysOf d) : dictSet d k v = d ++ [(k, v)] := by
  induction d with
  | nil => rfl
  | cons kv rest ih =>
    simp only [keysOf, List.map, List.mem_cons] at h
    push_neg at h
    have h1 : ¬(kv.1 = k) := fun hh => h.1 hh.symm
    simp only [dictSet, h1, if_false, List.cons_append]
    rw [ih]
    intro hmem
    exact h.2 hmem

theorem setFold_eq_append (raw : List (String × String)) :
    ∀ d : List (String × String), (∀ x ∈ keysOf raw, x ∉ keysOf d) →
      (keysOf raw).Nodup → setFold d raw = d ++ raw := by
  induction raw with
  | nil => intro d _ _; simp [setFold]
  | cons kv rest ih =>
    intro d hdisj hnd
    have hk : kv.1 ∉ keysOf d := hdisj kv.1 (by simp [keysOf])
    have step : setFold d (kv :: rest) = setFold (dictSet d kv.1 kv.2) rest := rfl
    rw [step, dictSet_eq_append d kv.1 kv.2 hk]
    simp only [keysOf, List.map, List.nodup_cons] at hnd
    rw [ih (d ++ [(kv.1, kv.2)])]
    · simp
    · intro x hx
      simp only [keysOf, List.map_append, List.mem_append, List.map] at *
      rintro (hxd | hxkv)
      · exact hdisj x (by simp [hx]) hxd
      · simp at hxkv
        exact hnd.1 (hxkv ▸ hx)
    · exact hnd.2

theorem mem_keysOf_setFold (raw : List (String × String)) :
    ∀ d k, k ∈ keysOf (setFold d raw) → k ∈ keysOf d ∨ k ∈ keysOf raw := by
  induction raw with
  | nil => intro d k h; exact Or.inl h
  | cons kv rest ih =>
    intro d k h
    have step : setFold d (kv :: rest) = setFold (dictSet d kv.1 kv.2) rest := rfl
    rw [step] at h
    rcases ih _ k h with h1 | h2
    · rcases (mem_keysOf_dictSet d kv.1 kv.2 k).mp h1 with rfl | hd
      · exact Or.inr (by simp [keysOf])
      · exact Or.inl hd
    · exact Or.inr (by simp [keysOf] at h2 ⊢; tauto)

theorem lastVal_nil (k : String) : lastVal [] k = none :=
  rfl

theorem lastVal_cons (kv : String × String) (raw : List (String × String)) (k : String) :
    lastVal (kv :: raw) k =
      match lastVal raw k with
      | some v => some v
      | none => if kv.1 = k then some kv.2 else none := by
  simp only [lastVal, List.reverse_cons, List.find?_append]
  rcases h : (raw.reverse.find? fun p => p.1 = k) with _ | v
  · simp only [h, Option.or]
    by_cases hk : kv.1 = k <;> simp [List.find?, hk]
  · simp [h, Option.or]

theorem dictFind_setFold (raw : List (String × String)) :
    ∀ d k, dictFind (setFold d raw) k =
      match lastVal raw k with
      | some v => some v
      | none => dictFind d k := by
  induction raw with
  | nil => intro d k; simp [setFold, lastVal_nil]
  | cons kv rest ih =>
    intro d k
    have step : setFold d (kv :: rest) = setFold (dictSet d kv.1 kv.2) rest := rfl
    rw [step, ih, lastVal_cons]
    rcases lastVal rest k with _ | v
    · simp only []
      rw [dictFind_dictSet]
      by_cases hk : k = kv.1
      · simp [hk]
      · have : ¬(kv.1 = k) := fun hh => hk hh.symm
        simp [hk, this]
    · simp

theorem dictFind_eq_none (d : List (String × String)) (k : String) :
    dictFind d k = none ↔ k ∉ keysOf d := by
  induction d with
  | nil => simp [dictFind_nil, keysOf]
  | cons kv rest ih =>
    rw [dictFind_cons]
    by_cases h : kv.1 = k
    · simp [h, keysOf]
    · simp only [h, if_false, ih, keysOf, List.map, List.mem_cons]
      constructor
      · rintro hnk (hk | hk)
        · exact h hk.symm
        · exact hnk hk
      · intro hnk hk
        exact hnk (Or.inr hk)

theorem rawSections_no_header (lines : List String) :
    ∀ cur content, (∀ l ∈ lines, isHeaderLine l = false) →
      rawSections lines cur content =
        if content ++ lines ≠ [] then [(strLower cur, joinNl (content ++ lines))] else [] := by
  induction lines with
  | nil =>
    intro cur content _
    simp [rawSections]
  | cons line rest ih =>
    intro cur content hnh
    have hl : isHeaderLine line = false := hnh line (by simp)
    rw [show rawSections (line :: rest) cur content =
          rawSections rest cur (content ++ [line]) by simp [rawSections, hl]]
    rw [ih cur (content ++ [line]) (fun l hl' => hnh l (by simp [hl']))]
    have h1 : content ++ [line] ++ rest ≠ [] := by simp
    have h2 : content ++ line :: rest ≠ [] := by simp
    simp only [h1, h2, if_true, ne_eq, not_false_iff, List.append_assoc, List.cons_append,
      List.nil_append]

theorem pySplitLines_ne_nil (s : String) : pySplitLines s ≠ [] := by
  rw [pySplitLines]
  intro h
  exact splitOnChar_ne_nil '\n' s.data (List.map_eq_nil_iff.mp h)

/-- C5 (counterexample): on the empty string the segmenter does not return an
empty mapping: `"".split('\n')` is `[""]`, so the final flush stores the
single entry `general ↦ ""`. -/
theorem extract_sections_empty_ne_empty_map :
    extract_sections "" = [("general", "")] ∧ extract_sections "" ≠ [] := by
  decide

/-- C5 (amended): segmentation of the empty string yields exactly the
one-entry mapping `{"general": ""}` (and raises no error: it is total). -/
theorem extract_sections_empty :
    extract_sections "" = [("general", "")] := by
  decide

/-- C6: a non-empty text none of whose lines is a header line (after the
code's whitespace trim, no line starts with `'#'`) is segmented into the
single entry `general ↦ whole input`. -/
theorem extract_sections_no_header (text : String) (hne : text ≠ "")
    (hnh : ∀ l ∈ pySplitLines text, isHeaderLine l = false) :
    extract_sections text = [("general", text)] := by
  rw [extract_sections_eq_setFold, rawSections_no_header _ _ _ hnh]
  have hsplit : ([] : List String) ++ pySplitLines text ≠ [] := by
    simp [pySplitLines_ne_nil]
  rw [if_pos hsplit]
  have hg : strLower "General" = "general" := by decide
  have hj : joinNl ([] ++ pySplitLines text) = text := by
    simp [joinNl_pySplitLines]
  rw [hg, hj]
  rfl

/-- C6 (witness): the two-line header-free text `"hello\nworld"`. -/
theorem extract_sections_no_header_witness :
    ("hello\nworld" : String) ≠ "" ∧
      extract_sections "hello\nworld" = [("general", "hello\nworld")] :=
  ⟨by decide, extract_sections_no_header "hello\nworld" (by decide) (by decide)⟩

/-- C7 (counterexample): in `"# A\nx\n# A"` the header name `a` occurs twice
and the later occurrence is followed by nothing, so the mapping keeps the
body of the EARLIER occurrence (`"x"`); the claim says the name is mapped to
the body following the later occurrence (which is empty here). -/
theorem extract_sections_dup_keeps_earlier :
    extract_sections "# A\nx\n# A" = [("a", "x")] ∧ ("x" : String) ≠ "" := by
  decide

/-- C7 (amended): the value stored under a name is the value of the LAST
flush of that name performed by the loop — a flush happens only when the
occurrence has a non-empty body buffer, so a later occurrence with a
non-empty body overwrites the earlier one, bodies are never appended, and a
later occurrence with an empty body leaves the earlier entry in place. -/
theorem extract_sections_lookup_lastVal (text n : String) :
    dictFind (extract_sections text) n =
      lastVal (rawSections (pySplitLines text) "General" []) n := by
  rw [extract_sections_eq_setFold, dictFind_setFold]
  rcases lastVal (rawSections (pySplitLines text) "General" []) n with _ | v
  · simp [dictFind_nil]
  · simp

theorem headerNoBody_tail (n : String) (a : String) (l : List String)
    (h : headerNoBody n (a :: l) = true) : headerNoBody n l = true := by
  cases l with
  | nil => rfl
  | cons b t =>
    simp only [headerNoBody, Bool.and_eq_true] at h
    exact h.2

theorem rawSections_no_key (n : String) (lines : List String) :
    ∀ cur content,
      (strLower cur = n → content = [] ∧ ∀ h t, lines = h :: t → isHeaderLine h = true) →
      headerNoBody n lines = true →
      n ∉ keysOf (rawSections lines cur content) := by
  induction lines with
  | nil =>
    intro cur content hcur _
    by_cases hc : content = []
    · simp [rawSections, hc, keysOf]
    · simp only [rawSections, hc, ne_eq, not_false_iff, if_true, keysOf, List.map,
        List.mem_singleton]
      intro heq
      exact hc (hcur heq.symm).1
  | cons line rest ih =>
    intro cur content hcur hnb
    by_cases hl : isHeaderLine line
    · rw [show rawSections (line :: rest) cur content =
            (if content ≠ [] then [(strLower cur, joinNl content)] else []) ++
              rawSections rest (headerName line) [] by simp [rawSections, hl]]
      simp only [keysOf, List.map_append, List.mem_append]
      rintro (hflush | hrec)
      · by_cases hc : content = []
        · simp [hc] at hflush
        · simp only [hc, ne_eq, not_false_iff, if_true, List.map, List.mem_singleton] at hflush
          exact hc (hcur hflush.symm).1
      · refine ih (headerName line) [] ?_ (headerNoBody_tail n line rest hnb) hrec
        intro hname
        refine ⟨rfl, ?_⟩
        intro h t hrest
        subst hrest
        simp only [headerNoBody, Bool.and_eq_true, Bool.or_eq_true, Bool.not_eq_true',
          Bool.and_eq_false_iff] at hnb
        rcases hnb.1 with hfalse | hb
        · rcases hfalse with hfalse | hfalse
          · rw [hl] at hfalse; exact absurd hfalse (by simp)
          · rw [show (strLower (headerName line) == n) = true by simp [hname]] at hfalse
            exact absurd hfalse (by simp)
        · exact hb
    · rw [show rawSections (line :: rest) cur content =
            rawSections rest cur (content ++ [line]) by simp [rawSections, hl]]
      refine ih cur (content ++ [line]) ?_ (headerNoBody_tail n line rest hnb)
      intro heq
      exact absurd ((hcur heq).2 line rest rfl) hl

/-- C10 (counterexample): in `"x\n# General"` the header `# General` is
immediately followed by the end of the document, yet the resulting mapping
DOES contain an entry for its name `general` — the entry flushed for the
default section holding the leading line `x`. -/
theorem extract_sections_bodiless_general_entry :
    extract_sections "x\n# General" = [("general", "x")] ∧
      dictFind (extract_sections "x\n# General") "general" = some "x" := by
  decide

/-- C10 (amended): a header occurrence whose body buffer stays empty (it is
immediately followed by another header or by the end of the document)
contributes no entry; hence when EVERY occurrence of a name `n ≠ "general"`
is bodiless in this sense, `n` does not occur as a key at all. -/
theorem extract_sections_no_bodiless_key (text n : String) (hn : n ≠ "general")
    (h : headerNoBody n (pySplitLines text) = true) :
    dictFind (extract_sections text) n = none := by
  rw [extract_sections_eq_setFold]
  have hraw : n ∉ keysOf (rawSections (pySplitLines text) "General" []) := by
    refine rawSections_no_key n (pySplitLines text) "General" [] ?_ h
    intro heq
    have hg : strLower "General" = "general" := by decide
    rw [hg] at heq
    exact absurd heq.symm hn
  refine (dictFind_eq_none _ _).mpr ?_
  intro hmem
  rcases mem_keysOf_setFold _ [] n hmem with h0 | h1
  · simp [keysOf] at h0
  · exact hraw h1

/-- C10 (witness): `"# A\n# B\nx"` — the header `# A` is immediately followed
by the header `# B`, and indeed no entry for `a` exists. -/
theorem extract_sections_no_bodiless_key_witness :
    ("a" : String) ≠ "general" ∧
      dictFind (extract_sections "# A\n# B\nx") "a" = none :=
  ⟨by decide, extract_sections_no_bodiless_key "# A\n# B\nx" "a" (by decide) (by decide)⟩

theorem pfxOf_append_self (p b : List Char) : pfxOf p (p ++ b) = true := by
  induction p with
  | nil => rfl
  | cons a as ih => simp [pfxOf, ih]

theorem isSubChars_of_pfx {p l : List Char} (h : pfxOf p l = true) :
    isSubChars p l = true := by
  cases l with
  | nil => simpa [isSubChars] using h
  | cons c t => simp [isSubChars, h]

theorem isSubChars_middle (p : List Char) : ∀ a b : List Char,
    isSubChars p (a ++ p ++ b) = true := by
  intro a
  induction a with
  | nil =>
    intro b
    exact isSubChars_of_pfx (by simpa using pfxOf_append_self p b)
  | cons c a' ih =>
    intro b
    have h2 : (c :: a') ++ p ++ b = c :: (a' ++ p ++ b) := by simp
    rw [h2]
    have h3 : isSubChars p (c :: (a' ++ p ++ b))
        = (pfxOf p (c :: (a' ++ p ++ b)) || isSubChars p (a' ++ p ++ b)) := rfl
    rw [h3, ih b, Bool.or_true]

theorem pfxOf_head_eq {a b : Char} {p q l : List Char}
    (ha : pfxOf (a :: p) l = true) (hb : pfxOf (b :: q) l = true) : a = b := by
  cases l with
  | nil => simp [pfxOf] at ha
  | cons c t =>
    simp only [pfxOf, Bool.and_eq_true, beq_iff_eq] at ha hb
    exact ha.1.trans hb.1.symm

theorem endsWith_excl (s suf1 suf2 : String) (a b : Char) (t1 t2 : List Char)
    (h1 : suf1.data.reverse = a :: t1) (h2 : suf2.data.reverse = b :: t2)
    (hab : a ≠ b) (hs : endsWithStr s suf1 = true) : endsWithStr s suf2 = false := by
  by_cases h : endsWithStr s suf2 = true
  · rw [endsWithStr, h1] at hs
    rw [endsWithStr, h2] at h
    exact absurd (pfxOf_head_eq hs h) hab
  · simpa using h

/-- C3 (counterexample): on the spec's end-to-end example input the segmenter
keeps the final newline: `"...Did X.\n".split('\n')` ends with an empty
string, which lands in the experience body, so the value is `"Did X.\n"`,
not `"Did X."` as the claim states. -/
theorem extract_sections_example_trailing_newline :
    extract_sections "# Summary\nA line.\n# Experience\nDid X.\n" =
      [("summary", "A line."), ("experience", "Did X.\n")] ∧
    ("Did X.\n" : String) ≠ "Did X." := by
  decide

/-- C3 (amended): the example input segments to
`{"summary": "A line.", "experience": "Did X.\n"}` (trailing newline kept),
and recomposing that mapping unchanged yields exactly
`"# Summary\n\nA line.\n\n# Experience\n\nDid X.\n"`. -/
theorem end_to_end_example :
    extract_sections "# Summary\nA line.\n# Experience\nDid X.\n" =
      [("summary", "A line."), ("experience", "Did X.\n")] ∧
    combine_sections [("summary", "A line."), ("experience", "Did X.\n")] =
      "# Summary\n\nA line.\n\n# Experience\n\nDid X.\n" := by
  decide

/-- C6 (counterexample): `"  # A\nx"` contains no line that starts with `'#'`,
yet the code strips whitespace before testing for `'#'`, so it treats
`"  # A"` as a header (named `"# a"`, since `strip('#')` removes no inner
`'#'`) instead of returning the single `general` entry. -/
theorem extract_sections_ws_header :
    extract_sections "  # A\nx" = [("# a", "x")] ∧
      extract_sections "  # A\nx" ≠ [("general", "  # A\nx")] := by
  decide

/-- C8: enhancement is a per-entry map: the key sequence is unchanged, an
entry whose lowercased key does not contain `"experience"` is kept verbatim,
and an entry whose lowercased key does contain it gets the external rewrite
of its original body and the job description. -/
theorem enhance_sections_frame (f : String → String → String)
    (sections : List (String × String)) (jd : String) :
    (enhance_sections f sections jd).length = sections.length ∧
    ∀ p ∈ sections.zip (enhance_sections f sections jd),
      p.2.1 = p.1.1 ∧
      (containsStr (strLower p.1.1) "experience" = false → p.2 = p.1) ∧
      (containsStr (strLower p.1.1) "experience" = true → p.2 = (p.1.1, f p.1.2 jd)) := by
  constructor
  · simp [enhance_sections]
  · induction sections with
    | nil => simp
    | cons kv rest ih =>
      intro p hp
      rw [show enhance_sections f (kv :: rest) jd =
            (if containsStr (strLower kv.1) "experience" then (kv.1, f kv.2 jd) else kv) ::
              enhance_sections f rest jd from rfl] at hp
      rcases List.mem_cons.mp hp with hph | hpt
      · subst hph
        by_cases hc : containsStr (strLower kv.1) "experience" = true
        · simp [hc]
        · have hc' : containsStr (strLower kv.1) "experience" = false := by
            simpa using hc
          simp [hc']
      · exact ih p hpt

/-- C8 (witness): a one-entry experience mapping with the rewrite call
instantiated to concatenation. -/
theorem enhance_sections_frame_witness :
    (("experience", "e"), ("experience", strAppend "e" "j")) ∈
        ([("experience", "e")] : List (String × String)).zip
          (enhance_sections (fun a b => strAppend a b) [("experience", "e")] "j") ∧
      ((("experience", "e"), ("experience", strAppend "e" "j")).2 : String × String)
        = ((("experience", "e"), ("experience", strAppend "e" "j")).1.1,
            strAppend (("experience", "e"), ("experience", strAppend "e" "j")).1.2 "j") :=
  ⟨by decide,
    ((enhance_sections_frame (fun a b => strAppend a b) [("experience", "e")] "j").2
      (("experience", "e"), ("experience", strAppend "e" "j")) (by decide)).2.2 (by decide)⟩

/-- C9: upload dispatch is by lowercased filename suffix — `.pdf`, `.docx`
or `.doc`, `.txt` go to the matching extractor; any other name produces the
unsupported-format error whose message carries `filename.split('.')[-1]`
(the text after the last dot) as a substring. -/
theorem process_upload_dispatch (name : String) :
    (endsWithStr (strLower name) ".pdf" = true →
        process_upload name = Except.ok Extractor.pdf) ∧
    ((endsWithStr (strLower name) ".docx" = true ∨ endsWithStr (strLower name) ".doc" = true) →
        process_upload name = Except.ok Extractor.docx) ∧
    (endsWithStr (strLower name) ".txt" = true →
        process_upload name = Except.ok Extractor.txt) ∧
    (endsWithStr (strLower name) ".pdf" = false →
      endsWithStr (strLower name) ".docx" = false →
      endsWithStr (strLower name) ".doc" = false →
      endsWithStr (strLower name) ".txt" = false →
        process_upload name =
          Except.error (strAppend "Unsupported file format: " (lastDotComponent (strLower name))) ∧
        containsStr (strAppend "Unsupported file format: " (lastDotComponent (strLower name)))
          (lastDotComponent (strLower name)) = true) := by
  refine ⟨?_, ?_, ?_, ?_⟩
  · intro h
    simp [process_upload, h]
  · rintro (h | h)
    · have hpdf := endsWith_excl (strLower name) ".docx" ".pdf" 'x' 'f'
        ['c', 'o', 'd', '.'] ['d', 'p', '.'] (by decide) (by decide) (by decide) h
      simp [process_upload, hpdf, h]
    · have hpdf := endsWith_excl (strLower name) ".doc" ".pdf" 'c' 'f'
        ['o', 'd', '.'] ['d', 'p', '.'] (by decide) (by decide) (by decide) h
      simp [process_upload, hpdf, h]
  · intro h
    have hpdf := endsWith_excl (strLower name) ".txt" ".pdf" 't' 'f'
      ['x', 't', '.'] ['d', 'p', '.'] (by decide) (by decide) (by decide) h
    have hdocx := endsWith_excl (strLower name) ".txt" ".docx" 't' 'x'
      ['x', 't', '.'] ['c', 'o', 'd', '.'] (by decide) (by decide) (by decide) h
    have hdoc := endsWith_excl (strLower name) ".txt" ".doc" 't' 'c'
      ['x', 't', '.'] ['o', 'd', '.'] (by decide) (by decide) (by decide) h
    simp [process_upload, hpdf, hdocx, hdoc, h]
  · intro h1 h2 h3 h4
    refine ⟨by simp [process_upload, h1, h2, h3, h4], ?_⟩
    rw [containsStr]
    have hdecomp : (strAppend "Unsupported file format: " (lastDotComponent (strLower name))).data
        = "Unsupported file format: ".data ++ (lastDotComponent (strLower name)).data ++ [] := by
      simp
    rw [hdecomp]
    exact isSubChars_middle _ _ _

/-- C9 (witness): `resume.xyz` fails naming `xyz`; `Resume.PDF` dispatches to
the pdf extractor. -/
theorem process_upload_dispatch_witness :
    process_upload "resume.xyz" = Except.error "Unsupported file format: xyz" ∧
      process_upload "Resume.PDF" = Except.ok Extractor.pdf := by
  constructor
  · have h := (process_upload_dispatch "resume.xyz").2.2.2
      (by decide) (by decide) (by decide) (by decide)
    rw [h.1]
    exact congrArg Except.error (by decide)
  · exact (process_upload_dispatch "Resume.PDF").1 (by decide)

theorem joinNl_mem_decomp (x : String) : ∀ l : List String, x ∈ l →
    ∃ a b : List Char, (joinNl l).data = a ++ x.data ++ b := by
  intro l
  induction l with
  | nil => simp
  | cons y t ih =>
    intro hx
    have hnl : ("\n" : String).data = ['\n'] := rfl
    rcases List.mem_cons.mp hx with rfl | hxt
    · cases t with
      | nil => exact ⟨[], [], by simp [joinNl]⟩
      | cons z zs =>
        refine ⟨[], '\n' :: (joinNl (z :: zs)).data, ?_⟩
        have hj : joinNl (x :: z :: zs) = strAppend x (strAppend "\n" (joinNl (z :: zs))) := rfl
        rw [hj]
        simp [hnl]
    · rcases ih hxt with ⟨a, b, hab⟩
      cases t with
      | nil => simp at hxt
      | cons z zs =>
        refine ⟨y.data ++ '\n' :: a, b, ?_⟩
        have hj : joinNl (y :: z :: zs) = strAppend y (strAppend "\n" (joinNl (z :: zs))) := rfl
        rw [hj]
        simp [hnl, hab]

theorem isSubChars_of_eq (p l a b : List Char) (h : l = a ++ p ++ b) :
    isSubChars p l = true :=
  h ▸ isSubChars_middle p a b

theorem mem_emittedPairs_of_first (sections : List (String × String)) (c : String)
    (kv : String × String) (hc : c ∈ section_order)
    (hfind : sections.find? (fun kv' => containsStr (strLower kv'.1) c) = some kv) :
    kv ∈ emittedPairs sections := by
  rw [emittedPairs]
  exact List.mem_append_left _ (List.mem_filterMap.mpr ⟨c, hc, hfind⟩)

theorem mem_emittedPairs_of_noncanon (sections : List (String × String))
    (kv : String × String) (hkv : kv ∈ sections)
    (hnc : ∀ c ∈ section_order, containsStr (strLower kv.1) c = false) :
    kv ∈ emittedPairs sections := by
  rw [emittedPairs]
  refine List.mem_append_right _ (List.mem_filter.mpr ⟨hkv, ?_⟩)
  simp only [Bool.not_eq_true', List.any_eq_false]
  intro c hc
  simp [hnc c hc]

/-- C1 (counterexample): in `{"summary": "a", "career summary": "b"}` both
keys contain the canonical name `summary`; only the first is emitted, and
the non-canonical pass skips `career summary` too (it DOES contain a
canonical name), so the body `"b"` is absent from the output. -/
theorem combine_sections_drops_second_summary :
    combine_sections [("summary", "a"), ("career summary", "b")] = "# Summary\n\na\n" ∧
      containsStr (combine_sections [("summary", "a"), ("career summary", "b")])
        (pyStrip "b") = false := by
  decide

/-- C1 (amended): recomposition preserves the trimmed body of every emitted
entry — an entry that is the FIRST mapping entry containing some canonical
name, or one whose key contains no canonical name at all; such an entry's
whitespace-trimmed body occurs verbatim as a substring of the output. -/
theorem combine_sections_preserves_content (sections : List (String × String))
    (k v : String)
    (h : (∃ c ∈ section_order,
            sections.find? (fun kv => containsStr (strLower kv.1) c) = some (k, v)) ∨
         ((k, v) ∈ sections ∧
            ∀ c ∈ section_order, containsStr (strLower k) c = false)) :
    containsStr (combine_sections sections) (pyStrip v) = true := by
  have hmem : (k, v) ∈ emittedPairs sections := by
    rcases h with ⟨c, hc, hfind⟩ | ⟨hkv, hnc⟩
    · exact mem_emittedPairs_of_first sections c (k, v) hc hfind
    · exact mem_emittedPairs_of_noncanon sections (k, v) hkv hnc
  have hblock : sectionBlock k v ∈
      (emittedPairs sections).map (fun kv => sectionBlock kv.1 kv.2) :=
    List.mem_map.mpr ⟨(k, v), hmem, rfl⟩
  rcases joinNl_mem_decomp _ _ hblock with ⟨a, b, hab⟩
  rw [containsStr, combine_sections, hab]
  refine isSubChars_of_eq _ _
    (a ++ ("# ".data ++ ((pyTitle k).data ++ "\n\n".data))) ("\n".data ++ b) ?_
  simp [sectionBlock, List.append_assoc]

/-- C1 (witness): a single canonical summary entry whose body survives into
the output. -/
theorem combine_sections_preserves_content_witness :
    containsStr (combine_sections [("summary", "hello")]) (pyStrip "hello") = true :=
  combine_sections_preserves_content [("summary", "hello")] "summary" "hello"
    (Or.inl ⟨"summary", by decide, by decide⟩)

theorem count_filterMap_eq_countP {α : Type} (g : α → Option String) (l : List α)
    (k : String) : (l.filterMap g).count k = l.countP fun a => g a == some k := by
  induction l with
  | nil => rfl
  | cons a t ih =>
    rcases hg : g a with _ | b
    · rw [List.filterMap_cons, hg, List.countP_cons, ih]
      simp [hg]
    · rw [List.filterMap_cons, hg, List.count_cons, List.countP_cons, ih]
      by_cases hb : b = k <;> simp [hg, hb]

theorem countP_eq_one_of_unique {α : Type} (l : List α) (p : α → Bool) (a : α)
    (hnd : l.Nodup) (ha : a ∈ l) (hpa : p a = true)
    (huniq : ∀ b ∈ l, p b = true → b = a) : l.countP p = 1 := by
  induction l with
  | nil => simp at ha
  | cons x t ih =>
    rw [List.countP_cons]
    rcases List.mem_cons.mp ha with rfl | hat
    · have ht : t.countP p = 0 := by
        refine List.countP_eq_zero.mpr ?_
        intro b hb hpb
        exact (List.nodup_cons.mp hnd).1 ((huniq b (by simp [hb]) hpb) ▸ hb)
      simp [ht, hpa]
    · have hx : p x = false := by
        by_cases hpx : p x = true
        · have hxa := huniq x (by simp) hpx
          exact absurd (hxa ▸ hat) (List.nodup_cons.mp hnd).1
        · simpa using hpx
      rw [hx, if_neg (by simp), Nat.add_zero]
      exact ih (List.nodup_cons.mp hnd).2 hat fun b hb hpb => huniq b (by simp [hb]) hpb

theorem eq_of_keysOf_nodup (d : List (String × String)) (hnd : (keysOf d).Nodup)
    (u w : String × String) (hu : u ∈ d) (hw : w ∈ d) (hk : u.1 = w.1) : u = w := by
  induction d with
  | nil => simp at hu
  | cons kv t ih =>
    have hnd' : kv.1 ∉ keysOf t ∧ (keysOf t).Nodup := by
      simpa [keysOf, List.nodup_cons] using hnd
    rcases List.mem_cons.mp hu with rfl | hut
    · rcases List.mem_cons.mp hw with rfl | hwt
      · rfl
      · exact absurd (hk ▸ List.mem_map.mpr ⟨w, hwt, rfl⟩) hnd'.1
    · rcases List.mem_cons.mp hw with rfl | hwt
      · exact absurd (hk ▸ List.mem_map.mpr ⟨u, hut, rfl⟩ : w.1 ∈ keysOf t) hnd'.1
      · exact ih hnd'.2 hut hwt

theorem eq_of_length_le_one {α : Type} (l : List α) (hlen : l.length ≤ 1)
    (u w : α) (hu : u ∈ l) (hw : w ∈ l) : u = w := by
  cases l with
  | nil => simp at hu
  | cons x t =>
    cases t with
    | nil =>
      simp only [List.mem_singleton] at hu hw
      rw [hu, hw]
    | cons y s => simp at hlen

/-- C2 (counterexample): the key `"experience skills"` contains both the
canonical names `experience` and `skills`; `combine_sections` has no memory
of already-emitted keys across canonical slots, so the block is emitted
twice — the claim that a key matching two canonical names is emitted exactly
once fails. -/
theorem combine_sections_double_emit :
    combine_sections [("experience skills", "x")] =
      "# Experience Skills\n\nx\n\n# Experience Skills\n\nx\n" ∧
    emittedKeys [("experience skills", "x")] =
      ["experience skills", "experience skills"] := by
  decide

/-- C2 (amended): blocks of keys containing a canonical name (one per
canonical slot, the first mapping entry containing it, walked in canonical
order) precede all blocks of keys containing no canonical name; and when the
keys are pairwise distinct, each key contains at most one canonical name and
no two keys contain the same canonical name, every key is emitted exactly
once.  (A key containing several canonical names, however, is emitted once
per slot it wins, and a canonical-containing key that wins no slot is never
emitted.) -/
theorem combine_sections_emission (sections : List (String × String))
    (hnd : (keysOf sections).Nodup)
    (h1 : ∀ kv ∈ sections,
      (section_order.filter fun c => containsStr (strLower kv.1) c).length ≤ 1)
    (h2 : ∀ c ∈ section_order,
      (sections.filter fun kv => containsStr (strLower kv.1) c).length ≤ 1) :
    (∀ kv ∈ sections, (emittedKeys sections).count kv.1 = 1) ∧
    (∃ A B, emittedPairs sections = A ++ B ∧
      (∀ kv ∈ A, ∃ c ∈ section_order, containsStr (strLower kv.1) c = true) ∧
      (∀ kv ∈ B, ∀ c ∈ section_order, containsStr (strLower kv.1) c = false)) := by
  constructor
  · intro kv hkv
    have hsecnd : sections.Nodup := List.Nodup.of_map _ hnd
    have hdecomp : emittedKeys sections =
        (section_order.filterMap fun c =>
          Option.map (fun kv => kv.1)
            (sections.find? fun x => containsStr (strLower x.1) c)) ++
        ((sections.filter fun x =>
          !(section_order.any fun c => containsStr (strLower x.1) c)).map fun x => x.1) := by
      rw [emittedKeys, emittedPairs, List.map_append, List.map_filterMap]
    rw [hdecomp, List.count_append]
    by_cases hcanon : (section_order.any fun c => containsStr (strLower kv.1) c) = true
    · rcases List.any_eq_true.mp hcanon with ⟨c0, hc0mem, hc0⟩
      have hfind : (sections.find? fun x => containsStr (strLower x.1) c0) = some kv := by
        rcases hf : sections.find? (fun x => containsStr (strLower x.1) c0) with _ | u
        · exact absurd hc0 (by simpa using List.find?_eq_none.mp hf kv hkv)
        · have hu0 := List.find?_some hf
          have hu1 : containsStr (strLower u.1) c0 = true := hu0
          have humem : u ∈ sections := List.mem_of_find?_eq_some hf
          have huv : u = kv :=
            eq_of_length_le_one _ (h2 c0 hc0mem) u kv
              (List.mem_filter.mpr ⟨humem, hu1⟩) (List.mem_filter.mpr ⟨hkv, hc0⟩)
          exact huv ▸ hf
      have hA : (section_order.filterMap fun c =>
          Option.map (fun kv => kv.1)
            (sections.find? fun x => containsStr (strLower x.1) c)).count kv.1 = 1 := by
        rw [count_filterMap_eq_countP]
        refine countP_eq_one_of_unique section_order _ c0 (by decide) hc0mem ?_ ?_
        · simp [hfind]
        · intro c hcmem hc
          simp only [beq_iff_eq] at hc
          rcases hfc : sections.find? (fun x => containsStr (strLower x.1) c) with _ | u
          · rw [hfc] at hc
            simp at hc
          · rw [hfc] at hc
            simp at hc
            have humem := List.mem_of_find?_eq_some hfc
            have huc0 := List.find?_some hfc
            have huc : containsStr (strLower u.1) c = true := huc0
            have hukv : u = kv := eq_of_keysOf_nodup sections hnd u kv humem hkv hc
            rw [hukv] at huc
            exact eq_of_length_le_one _ (h1 kv hkv) c c0
              (List.mem_filter.mpr ⟨hcmem, huc⟩) (List.mem_filter.mpr ⟨hc0mem, hc0⟩)
      have hB : ((sections.filter fun x =>
          !(section_order.any fun c => containsStr (strLower x.1) c)).map
            fun x => x.1).count kv.1 = 0 := by
        rw [List.count_eq_zero]
        intro hmem
        rcases List.mem_map.mp hmem with ⟨u, huf, hu1⟩
        have hany := (List.mem_filter.mp huf).2
        simp only [Bool.not_eq_true'] at hany
        have := List.any_eq_false.mp hany c0 hc0mem
        rw [hu1] at this
        exact this hc0
      rw [hA, hB]
    · have hcanon' : (section_order.any fun c => containsStr (strLower kv.1) c) = false := by
        simpa using hcanon
      have hnc := List.any_eq_false.mp hcanon'
      have hA : (section_order.filterMap fun c =>
          Option.map (fun kv => kv.1)
            (sections.find? fun x => containsStr (strLower x.1) c)).count kv.1 = 0 := by
        rw [count_filterMap_eq_countP]
        refine List.countP_eq_zero.mpr ?_
        intro c hcmem hq
        simp only [beq_iff_eq] at hq
        rcases hfc : sections.find? (fun x => containsStr (strLower x.1) c) with _ | u
        · rw [hfc] at hq
          simp at hq
        · rw [hfc] at hq
          simp at hq
          have humem := List.mem_of_find?_eq_some hfc
          have huc0 := List.find?_some hfc
          have huc : containsStr (strLower u.1) c = true := huc0
          have hukv : u = kv := eq_of_keysOf_nodup sections hnd u kv humem hkv hq
          rw [hukv] at huc
          exact hnc c hcmem huc
      have hkvf : kv ∈ sections.filter fun x =>
          !(section_order.any fun c => containsStr (strLower x.1) c) :=
        List.mem_filter.mpr ⟨hkv, by simp [hcanon']⟩
      have hB : ((sections.filter fun x =>
          !(section_order.any fun c => containsStr (strLower x.1) c)).map
            fun x => x.1).count kv.1 = 1 := by
        rw [List.count_eq_countP, List.countP_map]
        refine countP_eq_one_of_unique _ _ kv (hsecnd.filter _) hkvf (by simp) ?_
        intro u hu hq
        simp only [Function.comp, beq_iff_eq] at hq
        exact eq_of_keysOf_nodup sections hnd u kv ((List.mem_filter.mp hu).1) hkv hq
      rw [hA, hB]
  · refine ⟨_, _, rfl, ?_, ?_⟩
    · intro kv hkv
      rcases List.mem_filterMap.mp hkv with ⟨c, hcmem, hfc⟩
      have hp := List.find?_some hfc
      exact ⟨c, hcmem, hp⟩
    · intro kv hkv c hcmem
      have hany := (List.mem_filter.mp hkv).2
      simp only [Bool.not_eq_true'] at hany
      exact (by simpa using List.any_eq_false.mp hany c hcmem)

/-- C2 (witness): the mapping `{"summary": "a", "misc": "b"}` satisfies the
side conditions and each key is emitted exactly once. -/
theorem combine_sections_emission_witness :
    (emittedKeys [("summary", "a"), ("misc", "b")]).count "summary" = 1 :=
  (combine_sections_emission [("summary", "a"), ("misc", "b")]
      (by decide) (by decide) (by decide)).1 ("summary", "a") (by decide)

theorem rawSections_accum (t : List String) :
    ∀ (d : List String) (cur : String) (c : List String),
      (∀ x ∈ t, isHeaderLine x = false) →
      rawSections (t ++ d) cur c = rawSections d cur (c ++ t) := by
  induction t with
  | nil => intro d cur c _; simp
  | cons x t' ih =>
    intro d cur c hnh
    have hx : isHeaderLine x = false := hnh x (by simp)
    have step : rawSections (x :: (t' ++ d)) cur c = rawSections (t' ++ d) cur (c ++ [x]) := by
      simp [rawSections, hx]
    rw [List.cons_append, step, ih d cur (c ++ [x]) (fun y hy => hnh y (by simp [hy]))]
    simp

theorem headersHaveBody_tail (a : String) (l : List String)
    (h : headersHaveBody (a :: l) = true) : headersHaveBody l = true := by
  cases l with
  | nil => rfl
  | cons b t =>
    simp only [headersHaveBody, Bool.and_eq_true] at h
    exact h.2

theorem headersHaveBody_cons_header (h : String) (rest : List String)
    (hh : isHeaderLine h = true) (hhb : headersHaveBody (h :: rest) = true) :
    ∃ b t', rest = b :: t' ∧ isHeaderLine b = false := by
  cases rest with
  | nil =>
    simp only [headersHaveBody, hh] at hhb
    exact absurd hhb (by simp)
  | cons b t' =>
    refine ⟨b, t', rfl, ?_⟩
    simp only [headersHaveBody, Bool.and_eq_true, Bool.or_eq_true, Bool.not_eq_true'] at hhb
    rcases hhb.1 with hfalse | hb
    · rw [hh] at hfalse
      exact absurd hfalse (by simp)
    · exact hb

theorem headersHaveBody_dropWhile (p : String → Bool) :
    ∀ l : List String, headersHaveBody l = true →
      headersHaveBody (l.dropWhile p) = true := by
  intro l
  induction l with
  | nil => intro h; exact h
  | cons a t ih =>
    intro h
    by_cases hp : p a
    · rw [List.dropWhile_cons, if_pos hp]
      exact ih (headersHaveBody_tail a t h)
    · rw [List.dropWhile_cons, if_neg hp]
      exact h

theorem dropWhile_head_false (p : String → Bool) :
    ∀ (l : List String) (b : String) (t : List String),
      l.dropWhile p = b :: t → p b = false := by
  intro l
  induction l with
  | nil => intro b t h; simp [List.dropWhile] at h
  | cons a l' ih =>
    intro b t h
    by_cases hp : p a
    · rw [List.dropWhile_cons, if_pos hp] at h
      exact ih b t h
    · rw [List.dropWhile_cons, if_neg hp] at h
      rcases h with ⟨rfl, rfl⟩ | _
      · simpa using hp
      all_goals simp_all

theorem length_dropWhile_le_self (p : String → Bool) :
    ∀ l : List String, (l.dropWhile p).length ≤ l.length := by
  intro l
  induction l with
  | nil => simp
  | cons a s ih =>
    by_cases hp : p a = true
    · rw [List.dropWhile_cons, if_pos hp]
      exact Nat.le_trans ih (by simp)
    · rw [List.dropWhile_cons, if_neg hp]

theorem rawSections_eq_specSegments_aux (n : Nat) :
    ∀ lines : List String, lines.length ≤ n →
      headersHaveBody lines = true →
      (lines = [] ∨ ∃ h t, lines = h :: t ∧ isHeaderLine h = true) →
      ∀ cur, rawSections lines cur [] = specSegments lines := by
  induction n with
  | zero =>
    intro lines hlen _ _ cur
    have : lines = [] := List.length_eq_zero.mp (Nat.le_zero.mp hlen)
    subst this
    rw [specSegments]
    rfl
  | succ n ih =>
    intro lines hlen hhb hfirst cur
    rcases hfirst with rfl | ⟨h, rest, rfl, hh⟩
    · rw [specSegments]; rfl
    · have step1 : rawSections (h :: rest) cur [] = rawSections rest (headerName h) [] := by
        simp [rawSections, hh]
      have hspec : specSegments (h :: rest) =
          (strLower (headerName h), joinNl (rest.takeWhile fun l => !isHeaderLine l)) ::
            specSegments (rest.dropWhile fun l => !isHeaderLine l) := by
        rw [specSegments]
        simp [hh]
      rcases headersHaveBody_cons_header h rest hh hhb with ⟨b, t', rfl, hb⟩
      have hsplit : (b :: t').takeWhile (fun l => !isHeaderLine l) ++
          (b :: t').dropWhile (fun l => !isHeaderLine l) = b :: t' :=
        List.takeWhile_append_dropWhile _ _
      have htake_nh : ∀ x ∈ (b :: t').takeWhile (fun l => !isHeaderLine l),
          isHeaderLine x = false := by
        intro x hx
        have := List.mem_takeWhile_imp hx
        simpa using this
      have htake_ne : (b :: t').takeWhile (fun l => !isHeaderLine l) ≠ [] := by
        rw [List.takeWhile_cons, if_pos (by simp [hb])]
        simp
      have step2 : rawSections (b :: t') (headerName h) [] =
          rawSections ((b :: t').dropWhile fun l => !isHeaderLine l) (headerName h)
            ((b :: t').takeWhile fun l => !isHeaderLine l) := by
        conv_lhs => rw [← hsplit]
        rw [rawSections_accum _ _ _ _ htake_nh]
        simp
      rw [step1, step2, hspec]
      rcases hd : (b :: t').dropWhile (fun l => !isHeaderLine l) with _ | ⟨g, d'⟩
      · rw [show specSegments ([] : List String) = [] from by rw [specSegments]]
        simp [rawSections, htake_ne]
      · have hg : isHeaderLine g = true := by
          have := dropWhile_head_false _ _ _ _ hd
          simpa using this
        have hdlen : (g :: d').length ≤ n := by
          have h1 := length_dropWhile_le_self (fun l => !isHeaderLine l) (b :: t')
          rw [hd] at h1
          have h2 : (b :: t').length + 1 ≤ n + 1 := by simpa using hlen
          simp only [List.length_cons] at h1 h2 ⊢
          omega
        have hdhhb : headersHaveBody (g :: d') = true := by
          rw [← hd]
          exact headersHaveBody_dropWhile _ _ (headersHaveBody_tail h _ hhb)
        have hrec := ih (g :: d') hdlen hdhhb (Or.inr ⟨g, d', rfl, hg⟩) (headerName h)
        have hunfold : rawSections (g :: d') (headerName h) [] =
            rawSections d' (headerName g) [] := by
          simp [rawSections, hg]
        have step3 : rawSections (g :: d')
            (headerName h) ((b :: t').takeWhile fun l => !isHeaderLine l) =
            (strLower (headerName h),
              joinNl ((b :: t').takeWhile fun l => !isHeaderLine l)) ::
              rawSections d' (headerName g) [] := by
          simp [rawSections, hg, htake_ne]
        rw [step3, ← hunfold, hrec]

theorem keysOf_specSegments_aux (n : Nat) :
    ∀ lines : List String, lines.length ≤ n →
      keysOf (specSegments lines) = headerKeys lines := by
  induction n with
  | zero =>
    intro lines hlen
    have : lines = [] := List.length_eq_zero.mp (Nat.le_zero.mp hlen)
    subst this
    rw [specSegments]
    rfl
  | succ n ih =>
    intro lines hlen
    cases lines with
    | nil => rw [specSegments]; rfl
    | cons line rest =>
      by_cases hh : isHeaderLine line
      · have hspec : specSegments (line :: rest) =
            (strLower (headerName line), joinNl (rest.takeWhile fun l => !isHeaderLine l)) ::
              specSegments (rest.dropWhile fun l => !isHeaderLine l) := by
          rw [specSegments]
          simp [hh]
        have hdlen : (rest.dropWhile fun l => !isHeaderLine l).length ≤ n := by
          have h1 := length_dropWhile_le_self (fun l => !isHeaderLine l) rest
          have h2 : rest.length + 1 ≤ n + 1 := by simpa using hlen
          omega
        rw [hspec]
        have hrest : headerKeys (line :: rest) =
            strLower (headerName line) :: headerKeys rest := by
          simp [headerKeys, List.filter_cons, hh]
        rw [hrest]
        have htail : headerKeys rest =
            headerKeys (rest.dropWhile fun l => !isHeaderLine l) := by
          conv_lhs => rw [← List.takeWhile_append_dropWhile
            (p := fun l => !isHeaderLine l) (l := rest)]
          rw [headerKeys, List.filter_append]
          have : (rest.takeWhile fun l => !isHeaderLine l).filter
              (fun l => isHeaderLine l) = [] := by
            rw [List.filter_eq_nil]
            intro a ha
            have := List.mem_takeWhile_imp ha
            simpa using this
          rw [this]
          rfl
        rw [htail, keysOf, List.map, ← keysOf]
        rw [ih _ hdlen]
      · have hspec : specSegments (line :: rest) = specSegments rest := by
          rw [specSegments]
          simp [hh]
        have hrest : headerKeys (line :: rest) = headerKeys rest := by
          simp [headerKeys, List.filter_cons, hh]
        rw [hspec, hrest]
        have h2 : rest.length + 1 ≤ n + 1 := by simpa using hlen
        exact ih rest (by omega)

/-- C4 (counterexample): in `"x\n# A\ny"` the content before the first header
is flushed under the default name `general`, so the key set is
`{general, a}`, not exactly the lowercased header names `{a}`. -/
theorem extract_sections_leading_content_key :
    extract_sections "x\n# A\ny" = [("general", "x"), ("a", "y")] ∧
      keysOf (extract_sections "x\n# A\ny") ≠ headerKeys (pySplitLines "x\n# A\ny") := by
  decide

/-- C4 (amended): when the first line is a header (under the code's test:
`'#'` after trimming whitespace), the lowercased header names are pairwise
distinct, and every header line is followed by at least one non-header line
before the next header or the end, `extract_sections` returns exactly one
entry per header line, in order, keyed by the lowercased stripped header
name and valued with the newline-join of the lines lying strictly between
that header and the next (the mapping `specSegments`). -/
theorem extract_sections_eq_specSegments (text : String)
    (hfirst : ∃ h t, pySplitLines text = h :: t ∧ isHeaderLine h = true)
    (hhb : headersHaveBody (pySplitLines text) = true)
    (hnd : (headerKeys (pySplitLines text)).Nodup) :
    extract_sections text = specSegments (pySplitLines text) := by
  rw [extract_sections_eq_setFold]
  rw [rawSections_eq_specSegments_aux (pySplitLines text).length (pySplitLines text)
    (Nat.le_refl _) hhb (Or.inr hfirst) "General"]
  have hkeys : keysOf (specSegments (pySplitLines text)) = headerKeys (pySplitLines text) :=
    keysOf_specSegments_aux (pySplitLines text).length (pySplitLines text) (Nat.le_refl _)
  rw [setFold_eq_append _ [] (fun x _ => by simp [keysOf]) (hkeys ▸ hnd)]
  simp

/-- C4 (witness): the well-formed document `"# A\nx\n# B\ny"`. -/
theorem extract_sections_eq_specSegments_witness :
    extract_sections "# A\nx\n# B\ny" = specSegments (pySplitLines "# A\nx\n# B\ny") :=
  extract_sections_eq_specSegments "# A\nx\n# B\ny"
    ⟨"# A", ["x", "# B", "y"], by decide, by decide⟩ (by decide) (by decide)

end ResumeOpt
